import Mathlib

/-!
Verification development for the disaster-response text-analytics core
(`sentiment_analyzer.py`, `trend_analyzer.py`).

Modelling conventions:
* Python strings are Lean `String`s (lists of characters); the character
  classes of the regexes (`\w`, `\s`, `str.lower`, `str.isalpha`) are
  modelled over ASCII, which is the alphabet the pipeline actually feeds them.
* Python floats are modelled as exact rationals `ℚ`; the claims under study
  concern branch structure and comparisons, not rounding.
* The two external lexicon scorers (VADER's compound score, TextBlob's
  polarity) are third-party data/libraries, not code of this repository;
  they are abstracted as function parameters `String → ℚ`.
* `pandas` data frames are modelled as a list of rows together with explicit
  column-presence flags; `dropna` on a column is `filterMap` over optional
  cells.  `nltk.word_tokenize` is likewise external and is abstracted as a
  `String → List String` parameter.
-/

/-! ## Character classes (ASCII model of Python `\w`, `\s`, `lower`) -/

def isLowerAlpha (c : Char) : Bool := 97 ≤ c.toNat && c.toNat ≤ 122

def isUpperAlpha (c : Char) : Bool := 65 ≤ c.toNat && c.toNat ≤ 90

def isDigitCh (c : Char) : Bool := 48 ≤ c.toNat && c.toNat ≤ 57

/-- Python regex `\w` (ASCII): letters, digits, underscore. -/
def isWordChar (c : Char) : Bool :=
  isLowerAlpha c || isUpperAlpha c || isDigitCh c || c == '_'

/-- Python regex `\s` / `str.strip` whitespace (ASCII): space, tab, LF, VT, FF, CR. -/
def isSpaceChar (c : Char) : Bool :=
  c == ' ' || c == '\t' || c == '\n' || c == '\r' || c.toNat == 11 || c.toNat == 12

/-- Python `str.lower`, one character (ASCII). -/
def lowerChar (c : Char) : Char :=
  if isUpperAlpha c then Char.ofNat (c.toNat + 32) else c

def strLower (s : String) : String := ⟨s.data.map lowerChar⟩

/-! ## Generic scan-and-delete, mirroring `re.sub(pat, '', text)`.

`m l` returns `some k` when the pattern matches a `k`-character chunk at the
head of `l` (and `k ≥ 1` for the patterns used here), else `none`.  The scan
moves left to right, deleting each non-overlapping match, as `re.sub` does. -/

def scanGo (m : List Char → Option Nat) : Nat → List Char → List Char
  | _, [] => []
  | skip+1, _ :: cs => scanGo m skip cs
  | 0, c :: cs =>
    match m (c :: cs) with
    | some (k+1) => scanGo m k cs
    | _ => c :: scanGo m 0 cs

def scanSub (m : List Char → Option Nat) (l : List Char) : List Char := scanGo m 0 l

/-- Does `p` start the list `l`? -/
def startsL : List Char → List Char → Bool
  | [], _ => true
  | _ :: _, [] => false
  | a :: p, b :: l => a == b && startsL p l

/-- Match literal lead-in `p` followed by a non-empty greedy run of `test` chars. -/
def matchFrom (p : List Char) (test : Char → Bool) (l : List Char) : Option Nat :=
  if startsL p l then
    let run := (l.drop p.length).takeWhile test
    if run.length = 0 then none else some (p.length + run.length)
  else none

def isNonSpace (c : Char) : Bool := !(isSpaceChar c)

/-- Python regex `https?://\S+|www\.\S+` at the head of `l`. -/
def matchUrl (l : List Char) : Option Nat :=
  match matchFrom ['h','t','t','p','s',':','/','/'] isNonSpace l with
  | some k => some k
  | none =>
    match matchFrom ['h','t','t','p',':','/','/'] isNonSpace l with
    | some k => some k
    | none => matchFrom ['w','w','w','.'] isNonSpace l

/-- Python regex `@\w+` (resp. `#\w+`) at the head of `l`. -/
def matchTag (marker : Char) : List Char → Option Nat
  | [] => none
  | c :: rest =>
    if c == marker then
      if (rest.takeWhile isWordChar).length = 0 then none
      else some (1 + (rest.takeWhile isWordChar).length)
    else none

/-- Python `re.sub(r'^rt\s+', '', text)`: one anchored removal. -/
def rtStrip : List Char → List Char
  | [] => []
  | [c] => [c]
  | [c1, c2] => [c1, c2]
  | c1 :: c2 :: c3 :: rest =>
    if c1 == 'r' && c2 == 't' && isSpaceChar c3 then rest.dropWhile isSpaceChar
    else c1 :: c2 :: c3 :: rest

/-- Python `re.sub(r'\s+', ' ', text)`: each maximal whitespace run becomes one space.
The flag records whether the previous character belonged to a run. -/
def collapseGo : Bool → List Char → List Char
  | _, [] => []
  | inRun, c :: cs =>
    if isSpaceChar c then
      if inRun then collapseGo true cs else ' ' :: collapseGo true cs
    else c :: collapseGo false cs

def collapseWs (l : List Char) : List Char := collapseGo false l

/-- Python `str.strip()`. -/
def stripWs (l : List Char) : List Char :=
  (((l.dropWhile isSpaceChar).reverse.dropWhile isSpaceChar)).reverse

/-- Function `clean_tweet` (sentiment_analyzer.py:25-54) on a character list:
lowercase; delete URLs; delete `@\w+`; delete `#\w+`; strip a leading
`rt` marker; collapse whitespace and trim; delete special characters. -/
def cleanL (l : List Char) : List Char :=
  let t1 := l.map lowerChar
  let t2 := scanSub matchUrl t1
  let t3 := scanSub (matchTag '@') t2
  let t4 := scanSub (matchTag '#') t3
  let t5 := rtStrip t4
  let t6 := stripWs (collapseWs t5)
  t6.filter (fun c => isWordChar c || isSpaceChar c)

/-- Function `clean_tweet` — the Text Normalizer (`normalize` of the spec). -/
def clean_tweet (s : String) : String := ⟨cleanL s.data⟩

/-! ## Sentiment scorer (sentiment_analyzer.py:56-136)

`vc` and `tp` abstract the external VADER compound and TextBlob polarity
lexicon functions. -/

/-- Threshold bucketing of `_vader_sentiment` (lines 93-98). -/
def bucketVader (c : ℚ) : String :=
  if c ≥ 5/100 then "positive" else if c ≤ -(5/100) then "negative" else "neutral"

/-- Threshold bucketing of `_textblob_sentiment` (lines 110-115). -/
def bucketTextblob (p : ℚ) : String :=
  if p > 1/10 then "positive" else if p < -(1/10) then "negative" else "neutral"

def vaderSentiment (vc : String → ℚ) (text : String) : String × ℚ :=
  (bucketVader (vc text), vc text)

def textblobSentiment (tp : String → ℚ) (text : String) : String × ℚ :=
  (bucketTextblob (tp text), tp text)

/-- Function `_combined_sentiment` (lines 120-136): agree → that label with the mean;
disagree → whichever sub-result has the strictly larger absolute raw value,
ties going to TextBlob. -/
def combinedSentiment (vc tp : String → ℚ) (text : String) : String × ℚ :=
  if bucketVader (vc text) = bucketTextblob (tp text) then
    (bucketVader (vc text), (vc text + tp text) / 2)
  else if |vc text| > |tp text| then (bucketVader (vc text), vc text)
  else (bucketTextblob (tp text), tp text)

/-- Function `analyze_sentiment` (lines 56-80), default combined method
(`score_sentiment` of the spec). -/
def analyze_sentiment (vc tp : String → ℚ) (text : String) : String × ℚ :=
  if text = "" then ("neutral", 0) else combinedSentiment vc tp (clean_tweet text)

/-! ## Impact classifier (sentiment_analyzer.py:138-181) -/

/-- Python `needle in haystack` (substring containment). -/
def containsSub (p : List Char) : List Char → Bool
  | [] => p.isEmpty
  | c :: t => startsL p (c :: t) || containsSub p t

def severe_keywords : List String :=
  ["catastrophic", "devastat", "fatal", "death", "killed", "casualties",
   "destroyed", "emergency", "evacuat", "crisis", "danger", "severe",
   "tragedy", "disaster", "critical", "massive"]

def moderate_keywords : List String :=
  ["damage", "injured", "wound", "affected", "impact", "hit", "threat",
   "loss", "moderate", "concern", "worried", "warning"]

def minor_keywords : List String :=
  ["minor", "small", "limited", "contained", "controlled", "restored",
   "recovery", "stable", "manageable", "relief"]

/-- Function `analyze_disaster_impact` (`classify_impact` of the spec): count keyword
hits per tier against the lowercased text, then walk the priority chain. -/
def analyze_disaster_impact (text : String) : String :=
  if severe_keywords.countP (fun k => containsSub k.data (text.data.map lowerChar)) > 0 then
    "severe"
  else if moderate_keywords.countP (fun k => containsSub k.data (text.data.map lowerChar)) > 0 then
    "moderate"
  else if minor_keywords.countP (fun k => containsSub k.data (text.data.map lowerChar)) > 0 then
    "minor"
  else "unknown"

/-! ## Batch model (`pandas.DataFrame` of tweet records)

A row holds the optional cells used by the trend module; the batch records
which columns exist at all (a pandas column exists for the whole frame).
Pre-parsed hashtag/mention cells are modelled as typed string lists; the
source additionally re-parses string-encoded lists through `eval`, a path
outside this model (spec §9 flags it as a defect to replace). -/

structure Row where
  text : Option String := none
  clean_text : Option String := none
  hashtags : Option (List String) := none
  mentions : Option (List String) := none
  created_at : Option Int := none
deriving DecidableEq

structure Batch where
  rows : List Row
  hasText : Bool := false
  hasCleanText : Bool := false
  hasHashtags : Bool := false
  hasMentions : Bool := false
  hasCreatedAt : Bool := false
deriving DecidableEq

/-! ## Field extractor (trend_analyzer.py:74-210) -/

/-- Python `re.findall(r'#(\w+)', text)` (resp. `@`): the captured word runs, in order.
The skip counter plays the same role as in `scanGo`. -/
def findTagged (marker : Char) : Nat → List Char → List (List Char)
  | _, [] => []
  | skip+1, _ :: cs => findTagged marker skip cs
  | 0, c :: cs =>
    if c == marker then
      let run := cs.takeWhile isWordChar
      if run.length = 0 then findTagged marker 0 cs
      else run :: findTagged marker run.length cs
    else findTagged marker 0 cs

/-- Function `extract_hashtags` (lines 74-101): concatenate the pre-parsed per-row lists
(lowercased, empty tags dropped); only if that yields nothing fall back to
regex extraction over every row's raw text. -/
def extract_hashtags (b : Batch) : List String :=
  let hashtags : List String :=
    if b.hasHashtags then
      (b.rows.filterMap Row.hashtags).flatMap
        (fun tags => (tags.filter (fun t => !t.isEmpty)).map strLower)
    else []
  if hashtags.isEmpty && b.hasText then
    (b.rows.filterMap Row.text).flatMap
      (fun t => (findTagged '#' 0 t.data).map (fun w => ⟨w.map lowerChar⟩))
  else hashtags

/-- Function `extract_mentions` (lines 103-130), the `@` twin of `extract_hashtags`. -/
def extract_mentions (b : Batch) : List String :=
  let mentions : List String :=
    if b.hasMentions then
      (b.rows.filterMap Row.mentions).flatMap
        (fun users => (users.filter (fun u => !u.isEmpty)).map strLower)
    else []
  if mentions.isEmpty && b.hasText then
    (b.rows.filterMap Row.text).flatMap
      (fun t => (findTagged '@' 0 t.data).map (fun w => ⟨w.map lowerChar⟩))
  else mentions

def stopwords : List String :=
  ["a", "an", "the", "and", "but", "or", "for", "nor", "on", "at", "to", "by",
   "is", "are", "was", "were", "be", "been", "being", "in", "that", "this",
   "these", "those", "it", "its", "rt", "via", "i", "you", "he", "she", "we",
   "they", "me", "him", "her", "us", "them", "my", "your", "his", "our", "their",
   "from", "with", "as", "of", "have", "has", "had", "do", "does", "did",
   "just", "more", "most", "some", "such", "no", "not", "only", "than",
   "then", "so", "very", "can", "will", "would", "should", "now", "about",
   "amp", "http", "https", "co", "t.co"]

/-- Python `str.isalpha` (ASCII model). -/
def isAlphaStr (w : String) : Bool :=
  !w.data.isEmpty && w.data.all (fun c => isLowerAlpha c || isUpperAlpha c)

/-- The significant-term filter of `extract_terms` applied to one text. -/
def termsOfText (tokenize : String → List String) (t : String) : List String :=
  (tokenize (strLower t)).filter
    (fun w => isAlphaStr w && !stopwords.contains w && w.length > 2)

/-- Column choice shared by `extract_terms` and `extract_phrases`:
`clean_text` if that column exists, else `text`. -/
def textColumn (b : Batch) : List String :=
  if b.hasCleanText then b.rows.filterMap Row.clean_text
  else if b.hasText then b.rows.filterMap Row.text
  else []

/-- Function `extract_terms` (lines 132-164). -/
def extract_terms (tokenize : String → List String) (b : Batch) : List String :=
  (textColumn b).flatMap (termsOfText tokenize)

/-- Python `nltk.util.ngrams`: all length-`n` contiguous windows. -/
def ngramsL (n : Nat) (l : List String) : List (List String) :=
  (List.range (l.length + 1 - n)).map (fun i => (l.drop i).take n)

/-- Function `extract_phrases` (lines 166-192): space-joined bigrams then trigrams of
the alphabetic >2-char tokens of each text (no stopword filter here). -/
def extract_phrases (tokenize : String → List String) (b : Batch) : List String :=
  (textColumn b).flatMap (fun t =>
    let filtered := (tokenize (strLower t)).filter
      (fun w => isAlphaStr w && w.length > 2)
    (if filtered.length ≥ 2 then
      (ngramsL 2 filtered).map (fun g => String.intercalate " " g)
     else []) ++
    (if filtered.length ≥ 3 then
      (ngramsL 3 filtered).map (fun g => String.intercalate " " g)
     else []))

/-- One step of the URL character class `(?:[-\w.]|(?:%[\da-fA-F]{2}))+`:
how many characters the class consumes at the head of `l` (0 = none). -/
def isHexDigit' (c : Char) : Bool :=
  isDigitCh c || (97 ≤ c.toNat && c.toNat ≤ 102) || (65 ≤ c.toNat && c.toNat ≤ 70)

def urlBodyRun : List Char → Nat
  | [] => 0
  | c :: cs =>
    if isWordChar c || c == '-' || c == '.' then 1 + urlBodyRun cs
    else if c == '%' then
      match cs with
      | a :: b :: rest => if isHexDigit' a && isHexDigit' b then 3 + urlBodyRun rest else 0
      | _ => 0
    else 0

/-- Python `re.findall(r'https?://(?:[-\w.]|(?:%[\da-fA-F]{2}))+', text)`:
the matched URLs (scheme included), in order. -/
def findUrls : Nat → List Char → List (List Char)
  | _, [] => []
  | skip+1, _ :: cs => findUrls skip cs
  | 0, c :: cs =>
    let l := c :: cs
    let tryAt (p : List Char) : Option (List Char × Nat) :=
      if startsL p l then
        let n := urlBodyRun (l.drop p.length)
        if n = 0 then none else some (l.take (p.length + n), p.length + n)
      else none
    match tryAt ['h','t','t','p','s',':','/','/'] with
    | some (u, k) => u :: findUrls (k - 1) cs
    | none =>
      match tryAt ['h','t','t','p',':','/','/'] with
      | some (u, k) => u :: findUrls (k - 1) cs
      | none => findUrls 0 cs

/-- Python `re.search(r'https?://(?:www\.)?([^/]+)', url).group(1)` for a string that
begins with its scheme: host component, with an optional `www.` skipped when
something non-`/` follows it. -/
def domainOf (u : List Char) : Option (List Char) :=
  let rest :=
    if startsL ['h','t','t','p','s',':','/','/'] u then u.drop 8
    else if startsL ['h','t','t','p',':','/','/'] u then u.drop 7
    else u
  let rest' :=
    if startsL ['w','w','w','.'] rest && ((rest.drop 4).takeWhile (fun c => c != '/')).length > 0
    then rest.drop 4 else rest
  let host := rest'.takeWhile (fun c => c != '/')
  if host.length = 0 then none else some host

/-- Function `extract_domains` (lines 194-210). -/
def extract_domains (b : Batch) : List String :=
  if b.hasText then
    (b.rows.filterMap Row.text).flatMap (fun t =>
      (findUrls 0 t.data).filterMap (fun u =>
        (domainOf u).map (fun h => ⟨h.map lowerChar⟩)))
  else []

/-! ## Counting (`collections.Counter`) and ranking -/

/-- The literal `0.5` of trend_analyzer.py:267 in kernel-normal form
(`Rat` addition/division do not reduce in the kernel, so the threshold is
stated directly as the reduced fraction 1/2). -/
def qHalf : ℚ := ⟨1, 2, by decide, by decide⟩

/-- Distinct elements in first-occurrence order (a `Counter`'s key order). -/
def firstOccurGo (seen : List String) : List String → List String
  | [] => []
  | x :: t => if seen.contains x then firstOccurGo seen t else x :: firstOccurGo (x :: seen) t

def firstOccur (l : List String) : List String := firstOccurGo [] l

/-- Python `Counter(l).items()`: keys in first-occurrence order with their counts. -/
def counterItems (l : List String) : List (String × Nat) :=
  (firstOccur l).map (fun k => (k, l.count k))

/-- Stable descending insertion by a numeric key. -/
def insertDescBy (key : α → ℚ) (p : α) : List α → List α
  | [] => [p]
  | q :: t => if key q > key p then q :: insertDescBy key p t else p :: q :: t

def sortDescBy (key : α → ℚ) (l : List α) : List α :=
  l.foldr (insertDescBy key) []

/-- Python `Counter(l).most_common(n)`: counts descending, ties in first-seen order. -/
def mostCommon (n : Nat) (l : List String) : List (String × Nat) :=
  (sortDescBy (fun p => (p.2 : ℚ)) (counterItems l)).take n

/-! ## Trend aggregator (trend_analyzer.py:17-72) -/

structure TrendReport where
  hashtags : List (String × Nat)
  mentions : List (String × Nat)
  terms : List (String × Nat)
  phrases : List (String × Nat)
  domains : List (String × Nat)
deriving DecidableEq

def emptyReport : TrendReport := ⟨[], [], [], [], []⟩

/-- Function `analyze_trends` with the body's extraction step abstracted as a fallible
computation, so that the `try/except` structure of lines 37-72 is explicit:
an in-body failure degrades to the empty report. -/
def analyze_trendsE
    (ext : Batch → Except String (List String × List String × List String × List String × List String))
    (top_n : Nat) (b : Batch) : TrendReport :=
  if b.rows.isEmpty then emptyReport
  else
    match ext b with
    | Except.error _ => emptyReport
    | Except.ok (h, m, t, p, d) =>
      ⟨mostCommon top_n h, mostCommon top_n m, mostCommon top_n t,
       mostCommon top_n p, mostCommon top_n d⟩

/-- Function `analyze_trends` (`aggregate_trends` of the spec), its extraction step
instantiated with the five total extractors. -/
def analyze_trends (tokenize : String → List String) (top_n : Nat) (b : Batch) : TrendReport :=
  analyze_trendsE
    (fun b => Except.ok
      (extract_hashtags b, extract_mentions b, extract_terms tokenize b,
       extract_phrases tokenize b, extract_domains b))
    top_n b

/-! ## Emerging-topic detector (trend_analyzer.py:212-285) -/

/-- Function `detect_emerging_topics`.  `now` stands for `pd.Timestamp.now()`; timestamps
are seconds.  The guard on line 223 is reproduced exactly as written in the
source: it returns `[]` when the `text` column IS present.  An emerging topic
is `(term, score, recent count)`. -/
def detect_emerging_topics (tokenize : String → List String) (now : Int)
    (time_window : Int) (b : Batch) : List (String × ℚ × Nat) :=
  if b.rows.isEmpty || !b.hasCreatedAt || b.hasText then []
  else
    let window_start := now - time_window
    let recentRows := b.rows.filter (fun r =>
      match r.created_at with | some t => t ≥ window_start | none => false)
    let olderRows := b.rows.filter (fun r =>
      match r.created_at with | some t => t < window_start | none => false)
    if recentRows.isEmpty then []
    else
      let recent_terms := extract_terms tokenize { b with rows := recentRows }
      let recent_term_counts := counterItems recent_terms
      if !olderRows.isEmpty then
        let older_terms := extract_terms tokenize { b with rows := olderRows }
        let emerging := recent_term_counts.filterMap (fun tc =>
          let older_count := older_terms.count tc.1
          let change_rate : ℚ :=
            if older_count = 0 then 1
            else
              let older_freq : ℚ := (older_count : ℚ) / (olderRows.length : ℚ)
              let recent_freq : ℚ := (tc.2 : ℚ) / (recentRows.length : ℚ)
              if older_freq > 0 then (recent_freq - older_freq) / older_freq else 1
          if change_rate > qHalf && tc.2 ≥ 3 then some (tc.1, change_rate, tc.2) else none)
        (sortDescBy (fun e => e.2.1) emerging).take 10
      else
        (mostCommon 10 recent_terms).map (fun tc => (tc.1, (1 : ℚ), tc.2))

/-- Whitespace tokenization: a concrete stand-in for the external
`nltk.word_tokenize` used when theorems are evaluated on concrete batches. -/
def wsTokenize (s : String) : List String :=
  ((s.data.splitOnP isSpaceChar).filter (fun w => !w.isEmpty)).map (fun w => ⟨w⟩)

/-! ## Derived predicates used by the statements -/

/-- Does some keyword of the tier occur in the lowercased text? -/
def hitsTier (kws : List String) (text : String) : Bool :=
  kws.any (fun k => containsSub k.data (text.data.map lowerChar))

/-- No two adjacent whitespace characters (every whitespace run has length 1). -/
def wsCollapsed : List Char → Bool
  | a :: b :: t => (!(isSpaceChar a && isSpaceChar b)) && wsCollapsed (b :: t)
  | _ => true

def headSpace : List Char → Bool
  | c :: _ => isSpaceChar c
  | [] => false

/-- No leading and no trailing whitespace. -/
def trimmedWs (l : List Char) : Bool := !headSpace l && !headSpace l.reverse

/-- The whitespace discipline the spec asserts for `normalize` output:
runs collapsed to single characters, ends trimmed. -/
def wsNormalized (l : List Char) : Bool := wsCollapsed l && trimmedWs l

/-- Characters that survive the full `clean_tweet` pipeline unchanged:
lowercase letters, digits, underscore, space. -/
def canonChar (c : Char) : Bool := isLowerAlpha c || isDigitCh c || c == '_' || c == ' '

/-- Starts with the retweet marker `rt` followed by whitespace. -/
def rtLead : List Char → Bool
  | c1 :: c2 :: c3 :: _ => c1 == 'r' && c2 == 't' && isSpaceChar c3
  | _ => false

/-- Fixed points of `clean_tweet`: canonical characters, single interior
spaces, trimmed, and no leading retweet marker. -/
def canonicalForm (l : List Char) : Bool :=
  l.all canonChar && wsNormalized l && !rtLead l

/-- The text after the URL, mention and hashtag deletions of `clean_tweet`
(the intermediate state at sentiment_analyzer.py:43). -/
def strip3L (l : List Char) : List Char :=
  scanSub (matchTag '#') (scanSub (matchTag '@') (scanSub matchUrl (l.map lowerChar)))

/-- The per-message two-tier preference rule asserted by the spec for hashtag
extraction (tier 1: the message's own pre-parsed non-empty list; tier 2: that
message's raw text), stated for comparison with the source's batch-level rule. -/
def extract_hashtags_claimed (b : Batch) : List String :=
  b.rows.flatMap (fun r =>
    match (if b.hasHashtags then r.hashtags else none) with
    | some (t :: ts) => (((t :: ts)).filter (fun t => !t.isEmpty)).map strLower
    | _ =>
      if b.hasText then
        match r.text with
        | some t => (findTagged '#' 0 t.data).map (fun w => ⟨w.map lowerChar⟩)
        | none => []
      else [])

/-! ## Theorems -/

/-- Helper: a positive tier count is the same as a tier hit. -/
theorem countP_pos_iff_hitsTier (kws : List String) (text : String) :
    0 < kws.countP (fun k => containsSub k.data (text.data.map lowerChar)) ↔
      hitsTier kws text = true := by
  rw [List.countP_pos_iff]
  unfold hitsTier
  rw [List.any_eq_true]

/-- C5: `classify_impact` is a strict priority chain: any severe keyword
(matched case-insensitively as a substring) forces `"severe"` regardless of
other tiers; else a moderate hit gives `"moderate"`; else a minor hit gives
`"minor"`; else `"unknown"`. -/
theorem classify_impact_priority_chain (text : String) :
    (hitsTier severe_keywords text = true → analyze_disaster_impact text = "severe") ∧
    (hitsTier severe_keywords text = false → hitsTier moderate_keywords text = true →
      analyze_disaster_impact text = "moderate") ∧
    (hitsTier severe_keywords text = false → hitsTier moderate_keywords text = false →
      hitsTier minor_keywords text = true → analyze_disaster_impact text = "minor") ∧
    (hitsTier severe_keywords text = false → hitsTier moderate_keywords text = false →
      hitsTier minor_keywords text = false → analyze_disaster_impact text = "unknown") := by
  have hpos : ∀ kws : List String, hitsTier kws text = true →
      kws.countP (fun k => containsSub k.data (text.data.map lowerChar)) > 0 :=
    fun kws h => (countP_pos_iff_hitsTier kws text).mpr h
  have hneg : ∀ kws : List String, hitsTier kws text = false →
      ¬ kws.countP (fun k => containsSub k.data (text.data.map lowerChar)) > 0 :=
    fun kws h hc => by
      have := (countP_pos_iff_hitsTier kws text).mp hc
      rw [h] at this
      exact Bool.false_ne_true this
  refine ⟨fun h1 => ?_, fun h1 h2 => ?_, fun h1 h2 h3 => ?_, fun h1 h2 h3 => ?_⟩ <;>
    unfold analyze_disaster_impact
  · rw [if_pos (hpos _ h1)]
  · rw [if_neg (hneg _ h1), if_pos (hpos _ h2)]
  · rw [if_neg (hneg _ h1), if_neg (hneg _ h2), if_pos (hpos _ h3)]
  · rw [if_neg (hneg _ h1), if_neg (hneg _ h2), if_neg (hneg _ h3)]

/-- Witness for C5 at a text holding severe, moderate and minor keywords. -/
theorem classify_impact_priority_chain_witness :
    analyze_disaster_impact "Catastrophic damage but relief works" = "severe" :=
  (classify_impact_priority_chain "Catastrophic damage but relief works").1 (by decide)

/-- C9: `aggregate_trends` on an empty batch is the report with five empty
mappings, and a failure inside the extraction body is caught and degrades to
that same empty report instead of propagating. -/
theorem aggregate_trends_empty_and_caught :
    (∀ (tokenize : String → List String) (n : Nat) (b : Batch), b.rows = [] →
      analyze_trends tokenize n b = emptyReport) ∧
    (∀ (ext : Batch →
          Except String (List String × List String × List String × List String × List String))
       (n : Nat) (b : Batch) (e : String), ext b = Except.error e →
      analyze_trendsE ext n b = emptyReport) ∧
    emptyReport.hashtags = [] ∧ emptyReport.mentions = [] ∧ emptyReport.terms = [] ∧
    emptyReport.phrases = [] ∧ emptyReport.domains = [] := by
  refine ⟨?_, ?_, rfl, rfl, rfl, rfl, rfl⟩
  · intro tok n b h
    unfold analyze_trends analyze_trendsE
    rw [h]
    rfl
  · intro ext n b e h
    unfold analyze_trendsE
    rw [h]
    split <;> rfl

/-- Witness for C9: an empty batch, and an extraction step that fails. -/
theorem aggregate_trends_empty_and_caught_witness :
    analyze_trends wsTokenize 10 { rows := [] } = emptyReport ∧
    analyze_trendsE (fun _ => Except.error "tokenizer failure") 10
      { rows := [{ text := some "x" }], hasText := true } = emptyReport :=
  ⟨aggregate_trends_empty_and_caught.1 wsTokenize 10 _ rfl,
   aggregate_trends_empty_and_caught.2.1 _ 10 _ "tokenizer failure" rfl⟩

/-- C1 (evaluation at the failing input): on a batch whose single message has
raw `text` and an in-window timestamp, the guard at trend_analyzer.py:223
(`'text' in df.columns` instead of `not in`) makes `detect_emerging_topics`
return `[]`; moving the same data to the `clean_text` column (so the guard
passes) produces exactly the top-terms-with-growth-1.0 list the spec asks for. -/
theorem detect_emerging_topics_no_baseline_guard :
    detect_emerging_topics wsTokenize 1000 3600
      { rows := [{ text := some "flood flood flood waters", created_at := some 1000 }],
        hasText := true, hasCreatedAt := true } = [] ∧
    detect_emerging_topics wsTokenize 1000 3600
      { rows := [{ clean_text := some "flood flood flood waters", created_at := some 1000 }],
        hasCleanText := true, hasCreatedAt := true }
      = [("flood", 1, 3), ("waters", 1, 1)] := by
  constructor <;> decide

/-- C4 (evaluation at the failing input): with a non-empty baseline and a raw
`text` column the same inverted guard yields `[]`, though the claim requires
the 3-occurrence term `flood` to be reported; on the `clean_text` variant the
body behaves as the claim says: `flood` (growth 1.0, count 3) is kept and
`rescue` (growth 1.0, count 2) fails the `recent_count ≥ 3` gate. -/
theorem detect_emerging_topics_filter_guard :
    detect_emerging_topics wsTokenize 5000 3600
      { rows := [{ text := some "other words here", created_at := some 0 },
                 { text := some "flood flood flood rescue rescue", created_at := some 5000 }],
        hasText := true, hasCreatedAt := true } = [] ∧
    detect_emerging_topics wsTokenize 5000 3600
      { rows := [{ clean_text := some "other words here", created_at := some 0 },
                 { clean_text := some "flood flood flood rescue rescue", created_at := some 5000 }],
        hasCleanText := true, hasCreatedAt := true }
      = [("flood", 1, 3)] := by
  constructor <;> decide

/-- C2: the fusion rule of `score_sentiment` for non-empty text: equal
bucketed labels give that label with the arithmetic mean of the raw values;
different labels give the sub-result whose raw value is strictly larger in
absolute value, unaveraged. -/
theorem score_sentiment_fusion (vc tp : String → ℚ) (text : String) (h : text ≠ "") :
    (bucketVader (vc (clean_tweet text)) = bucketTextblob (tp (clean_tweet text)) →
      analyze_sentiment vc tp text
        = (bucketVader (vc (clean_tweet text)),
           (vc (clean_tweet text) + tp (clean_tweet text)) / 2)) ∧
    (bucketVader (vc (clean_tweet text)) ≠ bucketTextblob (tp (clean_tweet text)) →
      |vc (clean_tweet text)| > |tp (clean_tweet text)| →
      analyze_sentiment vc tp text
        = (bucketVader (vc (clean_tweet text)), vc (clean_tweet text))) ∧
    (bucketVader (vc (clean_tweet text)) ≠ bucketTextblob (tp (clean_tweet text)) →
      |tp (clean_tweet text)| > |vc (clean_tweet text)| →
      analyze_sentiment vc tp text
        = (bucketTextblob (tp (clean_tweet text)), tp (clean_tweet text))) := by
  unfold analyze_sentiment combinedSentiment
  rw [if_neg h]
  refine ⟨fun hl => ?_, fun hl hm => ?_, fun hl hm => ?_⟩
  · rw [if_pos hl]
  · rw [if_neg hl, if_pos hm]
  · rw [if_neg hl, if_neg (lt_asymm hm)]

/-- Witness for C2 at concrete sub-scorer values that agree on `positive`. -/
theorem score_sentiment_fusion_witness :
    analyze_sentiment (fun _ => 1/2) (fun _ => 1/2) "good" = ("positive", 1/2) := by
  rw [(score_sentiment_fusion (fun _ => 1/2) (fun _ => 1/2) "good" (by decide)).1
        (by norm_num [bucketVader, bucketTextblob])]
  norm_num [bucketVader]

/-- C8: the pair returned by `score_sentiment` is internally consistent —
the label always equals the threshold bucket of the returned score under the
thresholds of one of the two sub-scorers (±0.05 lexicon, ±0.1 secondary). -/
theorem sentiment_label_score_consistent (vc tp : String → ℚ) (text : String) :
    (analyze_sentiment vc tp text).1 = bucketVader (analyze_sentiment vc tp text).2 ∨
    (analyze_sentiment vc tp text).1 = bucketTextblob (analyze_sentiment vc tp text).2 := by
  by_cases h : text = ""
  · left
    unfold analyze_sentiment
    rw [if_pos h]
    show "neutral" = bucketVader 0
    norm_num [bucketVader]
  · unfold analyze_sentiment combinedSentiment
    rw [if_neg h]
    by_cases hl : bucketVader (vc (clean_tweet text)) = bucketTextblob (tp (clean_tweet text))
    · rw [if_pos hl]
      show bucketVader (vc (clean_tweet text))
            = bucketVader ((vc (clean_tweet text) + tp (clean_tweet text)) / 2) ∨
          bucketVader (vc (clean_tweet text))
            = bucketTextblob ((vc (clean_tweet text) + tp (clean_tweet text)) / 2)
      unfold bucketVader bucketTextblob at hl ⊢
      split_ifs at hl ⊢ <;>
        first
          | (left; rfl)
          | (right; rfl)
          | (exact absurd hl (by decide))
          | (exfalso; linarith)
    · rw [if_neg hl]
      by_cases hm : |vc (clean_tweet text)| > |tp (clean_tweet text)|
      · rw [if_pos hm]
        left
        rfl
      · rw [if_neg hm]
        right
        rfl

/-- C3 counterexample: `normalize` is not idempotent.  On `"a , b"` the
whitespace collapse runs before special-character removal, so the first pass
leaves a double space that a second pass then collapses. -/
theorem normalize_not_idempotent :
    clean_tweet (clean_tweet "a , b") ≠ clean_tweet "a , b" := by decide

/-- C6 counterexample: the output of `normalize` is not always
whitespace-normalized.  Deleting the comma of `"a , b"` after the collapse
step leaves `"a  b"`, which has a two-space run. -/
theorem normalize_ws_counterexample :
    wsNormalized (clean_tweet "a , b").data = false := by decide

/-- C7 counterexample: hashtag extraction does not fall back per message.
With one message carrying a pre-parsed list and another carrying only raw
text, the source returns just the pre-parsed tags, while the per-message rule
of the claim would also regex-extract `ndrf` from the second message. -/
theorem extract_hashtags_per_message_counterexample :
    extract_hashtags
      { rows := [{ hashtags := some ["Flood"], text := some "base" },
                 { hashtags := none, text := some "help #NDRF" }],
        hasHashtags := true, hasText := true }
    ≠ extract_hashtags_claimed
      { rows := [{ hashtags := some ["Flood"], text := some "base" },
                 { hashtags := none, text := some "help #NDRF" }],
        hasHashtags := true, hasText := true } := by decide

/-- Helper: a flat map over a list all of whose elements map to `[]` is `[]`. -/
theorem flatMap_eq_nil_of_forall {α β : Type} (l : List α) (f : α → List β)
    (h : ∀ a ∈ l, f a = []) : l.flatMap f = [] := by
  induction l with
  | nil => rfl
  | cons a t ih =>
    rw [List.flatMap_cons, h a (List.mem_cons_self a t), List.nil_append]
    exact ih (fun x hx => h x (List.mem_cons_of_mem a hx))

/-- C7 amended: hashtag extraction is two-tier at batch level.  If any message
contributes a pre-parsed non-empty hashtag (so the batch-wide pre-parsed list
is non-empty), the result is exactly the concatenated lowercased pre-parsed
tags — raw text is not re-parsed; only when no message contributes a
pre-parsed tag does the extractor regex-parse `#word` tokens out of every
message's raw text (lowercased). -/
theorem extract_hashtags_two_tier (b : Batch) :
    (b.hasHashtags = true →
      ∀ r ∈ b.rows, ∀ ts, r.hashtags = some ts → ∀ t ∈ ts, t ≠ "" →
      extract_hashtags b =
        (b.rows.filterMap Row.hashtags).flatMap
          (fun tags => (tags.filter (fun u => !u.isEmpty)).map strLower)) ∧
    ((b.hasHashtags = true → ∀ r ∈ b.rows, ∀ ts, r.hashtags = some ts → ∀ t ∈ ts, t = "") →
      b.hasText = true →
      extract_hashtags b =
        (b.rows.filterMap Row.text).flatMap
          (fun t => (findTagged '#' 0 t.data).map (fun w => ⟨w.map lowerChar⟩))) := by
  constructor
  · intro hh r hr ts hts t ht hne
    unfold extract_hashtags
    rw [if_pos hh]
    have hmem : strLower t ∈
        (b.rows.filterMap Row.hashtags).flatMap
          (fun tags => (tags.filter (fun u => !u.isEmpty)).map strLower) := by
      refine List.mem_flatMap.mpr ⟨ts, List.mem_filterMap.mpr ⟨r, hr, hts⟩, ?_⟩
      refine List.mem_map.mpr ⟨t, List.mem_filter.mpr ⟨ht, ?_⟩, rfl⟩
      simp only [Bool.not_eq_true']
      exact Bool.eq_false_iff.mpr (fun hcontra => hne ((String.isEmpty_iff t).mp hcontra))
    rw [if_neg ?hcond]
    case hcond =>
      intro hcontra
      rw [List.isEmpty_iff.mp (Bool.and_elim_left hcontra)] at hmem
      exact (List.not_mem_nil _) hmem
  · intro hall ht
    unfold extract_hashtags
    have hnil : (if b.hasHashtags then
        (b.rows.filterMap Row.hashtags).flatMap
          (fun tags => (tags.filter (fun u => !u.isEmpty)).map strLower)
      else []) = [] := by
      by_cases hh : b.hasHashtags
      · rw [if_pos hh]
        refine flatMap_eq_nil_of_forall _ _ (fun ts hts => ?_)
        obtain ⟨r, hr, hrts⟩ := List.mem_filterMap.mp hts
        have : ts.filter (fun u => !u.isEmpty) = [] := by
          rw [List.filter_eq_nil_iff]
          intro t htmem
          have := hall hh r hr ts hrts t htmem
          simp [this, String.isEmpty]
        rw [this]
        rfl
      · rw [if_neg hh]
    rw [hnil]
    rw [if_pos (by rw [List.isEmpty_nil, ht]; rfl)]

/-- Witness for C7's amended claim: the round-trip of the spec — a pre-parsed
list `["Flood","NDRF"]` comes back lowercased with the raw text untouched. -/
theorem extract_hashtags_two_tier_witness :
    extract_hashtags
      { rows := [{ hashtags := some ["Flood", "NDRF"], text := some "raw #Other" }],
        hasHashtags := true, hasText := true } = ["flood", "ndrf"] := by
  rw [(extract_hashtags_two_tier
        { rows := [{ hashtags := some ["Flood", "NDRF"], text := some "raw #Other" }],
          hasHashtags := true, hasText := true }).1 rfl
        { hashtags := some ["Flood", "NDRF"], text := some "raw #Other" }
        (by decide) ["Flood", "NDRF"] rfl "Flood" (by decide) (by decide)]
  decide

/-- C10 counterexample: appending a `" #w"` token can change the sentiment
result.  `clean_tweet "rt #w"` is `""` while `clean_tweet "rt"` is `"rt"` (the
hashtag deletion exposes a retweet marker that is then stripped), so the two
sub-scorers are consulted on different texts and can return different pairs. -/
theorem sentiment_hashtag_append_counterexample :
    clean_tweet ("rt" ++ " #w") ≠ clean_tweet "rt" ∧
    analyze_sentiment (fun s => if s = "rt" then (2 : ℚ) else 0) (fun _ => 0) ("rt" ++ " #w")
      ≠ analyze_sentiment (fun s => if s = "rt" then (2 : ℚ) else 0) (fun _ => 0) "rt" := by
  constructor
  · decide
  · have h1 : analyze_sentiment (fun s => if s = "rt" then (2 : ℚ) else 0) (fun _ => 0)
        ("rt" ++ " #w") = ("neutral", 0) := by
      unfold analyze_sentiment
      rw [if_neg (by decide)]
      have hc : clean_tweet ("rt" ++ " #w") = "" := by decide
      rw [hc]
      unfold combinedSentiment
      simp only [eq_false (show ¬(("" : String) = "rt") by decide), if_false]
      norm_num [bucketVader, bucketTextblob]
    have h2 : analyze_sentiment (fun s => if s = "rt" then (2 : ℚ) else 0) (fun _ => 0)
        "rt" = ("positive", 2) := by
      unfold analyze_sentiment
      rw [if_neg (by decide)]
      have hc : clean_tweet "rt" = "rt" := by decide
      rw [hc]
      unfold combinedSentiment
      simp only [eq_true (show (("rt" : String) = "rt") from rfl), if_true]
      norm_num [bucketVader, bucketTextblob,
        eq_false (show ¬(("positive" : String) = "neutral") by decide)]
    rw [h1, h2]
    decide

/-! ### Character-class facts -/

theorem char_toNat_ofNat_valid (n : Nat) (h1 : 97 ≤ n) (h2 : n ≤ 122) :
    (Char.ofNat n).toNat = n := by
  unfold Char.ofNat
  rw [dif_pos (by unfold Nat.isValidChar; omega)]
  rfl

theorem canonChar_cases {c : Char} (h : canonChar c = true) :
    (97 ≤ c.toNat ∧ c.toNat ≤ 122) ∨ (48 ≤ c.toNat ∧ c.toNat ≤ 57) ∨ c = '_' ∨ c = ' ' := by
  simp only [canonChar, isLowerAlpha, isDigitCh, Bool.or_eq_true, Bool.and_eq_true,
    decide_eq_true_eq, beq_iff_eq] at h
  tauto

theorem canonChar_not_upper {c : Char} (h : canonChar c = true) : isUpperAlpha c = false := by
  cases hu : isUpperAlpha c with
  | false => rfl
  | true =>
    simp only [isUpperAlpha, Bool.and_eq_true, decide_eq_true_eq] at hu
    rcases canonChar_cases h with ⟨h1, h2⟩ | ⟨h1, h2⟩ | h3 | h3
    · omega
    · omega
    · subst h3; exact absurd hu (by decide)
    · subst h3; exact absurd hu (by decide)

theorem canonChar_word_or_space {c : Char} (h : canonChar c = true) :
    (isWordChar c || isSpaceChar c) = true := by
  rcases canonChar_cases h with ⟨h1, h2⟩ | ⟨h1, h2⟩ | h3 | h3
  · simp only [isWordChar, isLowerAlpha, isDigitCh, isSpaceChar, Bool.or_eq_true,
      Bool.and_eq_true, decide_eq_true_eq, beq_iff_eq]
    tauto
  · simp only [isWordChar, isLowerAlpha, isDigitCh, isSpaceChar, Bool.or_eq_true,
      Bool.and_eq_true, decide_eq_true_eq, beq_iff_eq]
    tauto
  · subst h3; decide
  · subst h3; decide

theorem isSpaceChar_cases {c : Char} (h : isSpaceChar c = true) :
    c = ' ' ∨ c = '\t' ∨ c = '\n' ∨ c = '\r' ∨ c.toNat = 11 ∨ c.toNat = 12 := by
  simp only [isSpaceChar, Bool.or_eq_true, beq_iff_eq] at h
  tauto

theorem canonChar_space_eq {c : Char} (h : canonChar c = true) (hs : isSpaceChar c = true) :
    c = ' ' := by
  rcases isSpaceChar_cases hs with h1 | h1 | h1 | h1 | h1 | h1
  · exact h1
  all_goals exfalso
  all_goals rcases canonChar_cases h with ⟨h2, h3⟩ | ⟨h2, h3⟩ | h4 | h4
  all_goals first
    | omega
    | (subst h1; first | exact absurd h2 (by decide) | exact absurd h4 (by decide))
    | (subst h4; exact absurd h1 (by decide))

theorem lowerChar_eq_self {c : Char} (h : isUpperAlpha c = false) : lowerChar c = c := by
  unfold lowerChar
  rw [h]
  rfl

theorem lowerChar_word {c : Char} (h : isWordChar c = true) : isWordChar (lowerChar c) = true := by
  cases hu : isUpperAlpha c with
  | false => rw [lowerChar_eq_self hu]; exact h
  | true =>
    simp only [isUpperAlpha, Bool.and_eq_true, decide_eq_true_eq] at hu
    unfold lowerChar
    rw [if_pos (by simp only [isUpperAlpha, Bool.and_eq_true, decide_eq_true_eq]; omega)]
    have hv : (Char.ofNat (c.toNat + 32)).toNat = c.toNat + 32 :=
      char_toNat_ofNat_valid _ (by omega) (by omega)
    have h97 : 97 ≤ (Char.ofNat (c.toNat + 32)).toNat := by omega
    have h122 : (Char.ofNat (c.toNat + 32)).toNat ≤ 122 := by omega
    simp only [isWordChar, isLowerAlpha, isDigitCh, Bool.or_eq_true, Bool.and_eq_true,
      decide_eq_true_eq, beq_iff_eq]
    tauto

theorem wordspace_lowerChar {c : Char} (h : (isWordChar c || isSpaceChar c) = true) :
    (isWordChar (lowerChar c) || isSpaceChar (lowerChar c)) = true := by
  rcases Bool.or_eq_true _ _ |>.mp h with hw | hs
  · rw [Bool.or_eq_true]
    exact Or.inl (lowerChar_word hw)
  · have hu : isUpperAlpha c = false := by
      cases hu : isUpperAlpha c with
      | false => rfl
      | true =>
        exfalso
        simp only [isUpperAlpha, Bool.and_eq_true, decide_eq_true_eq] at hu
        rcases isSpaceChar_cases hs with h1 | h1 | h1 | h1 | h1 | h1 <;>
          first | omega | (subst h1; exact absurd hu (by decide))
    rw [lowerChar_eq_self hu, Bool.or_eq_true]
    exact Or.inr hs

theorem mem_wordspace_not_special {l : List Char}
    (h : ∀ c ∈ l, (isWordChar c || isSpaceChar c) = true) :
    ':' ∉ l ∧ '.' ∉ l ∧ '@' ∉ l ∧ '#' ∉ l := by
  refine ⟨fun hm => ?_, fun hm => ?_, fun hm => ?_, fun hm => ?_⟩ <;>
    exact absurd (h _ hm) (by decide)

/-! ### Scan lemmas -/

theorem map_lowerChar_id {l : List Char} (h : ∀ c ∈ l, isUpperAlpha c = false) :
    l.map lowerChar = l := by
  induction l with
  | nil => rfl
  | cons c t ih =>
    rw [List.map_cons, lowerChar_eq_self (h c (List.mem_cons_self c t)),
      ih (fun x hx => h x (List.mem_cons_of_mem c hx))]

theorem scanGo_id {m : List Char → Option Nat} {l : List Char}
    (h : ∀ t, t <:+ l → m t = none) : scanGo m 0 l = l := by
  induction l with
  | nil => rfl
  | cons c cs ih =>
    show (match m (c :: cs) with
      | some (k+1) => scanGo m k cs
      | _ => c :: scanGo m 0 cs) = c :: cs
    rw [h (c :: cs) (List.suffix_refl _)]
    rw [ih (fun t ht => h t (ht.trans (List.suffix_cons c cs)))]

theorem scanGo_all (m : List Char → Option Nat) (l : List Char) :
    scanGo m l.length l = [] := by
  induction l with
  | nil => rfl
  | cons c cs ih => exact ih

theorem startsL_mem {p l : List Char} (h : startsL p l = true) : ∀ c ∈ p, c ∈ l := by
  induction p generalizing l with
  | nil => intro c hc; exact absurd hc (List.not_mem_nil c)
  | cons a p' ih =>
    cases l with
    | nil => exact absurd h (by simp [startsL])
    | cons b l' =>
      simp only [startsL, Bool.and_eq_true, beq_iff_eq] at h
      intro c hc
      rcases List.mem_cons.mp hc with hc | hc
      · subst hc; rw [h.1]; exact List.mem_cons_self b l'
      · exact List.mem_cons_of_mem b (ih h.2 c hc)

theorem startsL_length {p l : List Char} (h : startsL p l = true) : p.length ≤ l.length := by
  induction p generalizing l with
  | nil => simp
  | cons a p' ih =>
    cases l with
    | nil => exact absurd h (by simp [startsL])
    | cons b l' =>
      simp only [startsL, Bool.and_eq_true] at h
      simpa using ih h.2

theorem startsL_append_space {p : List Char} (hp : ∀ c ∈ p, isSpaceChar c = false)
    (s r : List Char) : startsL p (s ++ ' ' :: r) = startsL p s := by
  induction p generalizing s with
  | nil => rfl
  | cons a p' ih =>
    cases s with
    | nil =>
      simp only [List.nil_append, startsL]
      have : (a == ' ') = false := by
        cases hb : a == ' ' with
        | false => rfl
        | true =>
          have := hp a (List.mem_cons_self a p')
          rw [beq_iff_eq.mp hb] at this
          exact absurd this (by decide)
      rw [this, Bool.false_and]
    | cons b s' =>
      simp only [List.cons_append, startsL, List.append_eq]
      rw [ih (fun c hc => hp c (List.mem_cons_of_mem a hc)) s']

theorem takeWhile_append_space {q : Char → Bool} (hq : q ' ' = false) (a r : List Char) :
    List.takeWhile q (a ++ ' ' :: r) = a.takeWhile q := by
  induction a with
  | nil => simp [List.takeWhile_cons, hq]
  | cons c t ih =>
    simp only [List.cons_append, List.takeWhile_cons]
    cases q c <;> simp [ih]

theorem takeWhile_length_le (q : Char → Bool) (l : List Char) :
    (l.takeWhile q).length ≤ l.length := by
  induction l with
  | nil => simp
  | cons c t ih =>
    rw [List.takeWhile_cons]
    cases q c <;> simp <;> omega

theorem matchFrom_none {p l : List Char} {test : Char → Bool} (h : startsL p l = false) :
    matchFrom p test l = none := by
  unfold matchFrom
  rw [h]
  rfl

theorem matchFrom_bound {p l : List Char} {test : Char → Bool} {k : Nat}
    (h : matchFrom p test l = some k) : 1 ≤ k ∧ k ≤ l.length := by
  unfold matchFrom at h
  by_cases hs : startsL p l = true
  · rw [hs] at h
    simp only [if_true] at h
    by_cases hr : ((l.drop p.length).takeWhile test).length = 0
    · rw [if_pos hr] at h
      exact absurd h (by simp)
    · rw [if_neg hr] at h
      have hk := (Option.some_inj.mp h).symm
      have hlen : ((l.drop p.length).takeWhile test).length ≤ l.length - p.length := by
        calc ((l.drop p.length).takeWhile test).length ≤ (l.drop p.length).length :=
              takeWhile_length_le test (l.drop p.length)
          _ = l.length - p.length := List.length_drop p.length l
      have hp := startsL_length hs
      omega
  · rw [Bool.not_eq_true] at hs
    rw [hs] at h
    exact absurd h (by simp)

theorem matchFrom_append_space {p : List Char} {test : Char → Bool}
    (hp : ∀ c ∈ p, isSpaceChar c = false) (htest : test ' ' = false) (s r : List Char) :
    matchFrom p test (s ++ ' ' :: r) = matchFrom p test s := by
  unfold matchFrom
  rw [startsL_append_space hp s r]
  by_cases hs : startsL p s = true
  · rw [hs]
    have hdrop : (s ++ ' ' :: r).drop p.length = s.drop p.length ++ ' ' :: r :=
      List.drop_append_of_le_length (startsL_length hs)
    rw [hdrop, takeWhile_append_space htest (s.drop p.length) r]
  · rw [Bool.not_eq_true] at hs
    rw [hs]
    rfl

theorem matchUrl_none {l : List Char} (h1 : ':' ∉ l) (h2 : '.' ∉ l) : matchUrl l = none := by
  have n1 : startsL ['h','t','t','p','s',':','/','/'] l = false := by
    cases hs : startsL ['h','t','t','p','s',':','/','/'] l with
    | false => rfl
    | true => exact absurd (startsL_mem hs ':' (by decide)) h1
  have n2 : startsL ['h','t','t','p',':','/','/'] l = false := by
    cases hs : startsL ['h','t','t','p',':','/','/'] l with
    | false => rfl
    | true => exact absurd (startsL_mem hs ':' (by decide)) h1
  have n3 : startsL ['w','w','w','.'] l = false := by
    cases hs : startsL ['w','w','w','.'] l with
    | false => rfl
    | true => exact absurd (startsL_mem hs '.' (by decide)) h2
  unfold matchUrl
  rw [matchFrom_none n1, matchFrom_none n2, matchFrom_none n3]

theorem matchUrl_append_space (s r : List Char) :
    matchUrl (s ++ ' ' :: r) = matchUrl s := by
  unfold matchUrl
  rw [matchFrom_append_space (by decide) (by decide) s r,
    matchFrom_append_space (by decide) (by decide) s r,
    matchFrom_append_space (by decide) (by decide) s r]

theorem matchUrl_bound {l : List Char} {k : Nat} (h : matchUrl l = some k) :
    1 ≤ k ∧ k ≤ l.length := by
  unfold matchUrl at h
  rcases h1 : matchFrom ['h','t','t','p','s',':','/','/'] isNonSpace l with _ | k1
  · rw [h1] at h
    rcases h2 : matchFrom ['h','t','t','p',':','/','/'] isNonSpace l with _ | k2
    · rw [h2] at h
      exact matchFrom_bound h
    · rw [h2] at h
      cases h
      exact matchFrom_bound h2
  · rw [h1] at h
    cases h
    exact matchFrom_bound h1

theorem matchTag_none {marker : Char} {l : List Char} (h : marker ∉ l) :
    matchTag marker l = none := by
  cases l with
  | nil => rfl
  | cons c rest =>
    have hb : (c == marker) = false := by
      cases hb : c == marker with
      | false => rfl
      | true =>
        rw [beq_iff_eq.mp hb] at h
        exact absurd (List.mem_cons_self marker rest) h
    show (if c == marker then
        if (rest.takeWhile isWordChar).length = 0 then none
        else some (1 + (rest.takeWhile isWordChar).length)
      else none) = none
    rw [hb]
    rfl

theorem matchTag_append_space {marker : Char} (hm : isSpaceChar marker = false)
    (s r : List Char) : matchTag marker (s ++ ' ' :: r) = matchTag marker s := by
  cases s with
  | nil =>
    have hb : (' ' == marker) = false := by
      cases hb : ' ' == marker with
      | false => rfl
      | true => rw [← beq_iff_eq.mp hb] at hm; exact absurd hm (by decide)
    show (if ' ' == marker then
        if (r.takeWhile isWordChar).length = 0 then none
        else some (1 + (r.takeWhile isWordChar).length)
      else none) = none
    rw [hb]
    rfl
  | cons c s' =>
    show (if c == marker then
        if (((s' ++ ' ' :: r)).takeWhile isWordChar).length = 0 then none
        else some (1 + (((s' ++ ' ' :: r)).takeWhile isWordChar).length)
      else none)
      = (if c == marker then
        if (s'.takeWhile isWordChar).length = 0 then none
        else some (1 + (s'.takeWhile isWordChar).length)
      else none)
    rw [takeWhile_append_space (by decide) s' r]

theorem matchTag_bound {marker : Char} {l : List Char} {k : Nat}
    (h : matchTag marker l = some k) : 1 ≤ k ∧ k ≤ l.length := by
  cases l with
  | nil => exact absurd h (by simp [matchTag])
  | cons c rest =>
    rw [show matchTag marker (c :: rest) = (if c == marker then
        if (rest.takeWhile isWordChar).length = 0 then none
        else some (1 + (rest.takeWhile isWordChar).length)
      else none) from rfl] at h
    by_cases hb : (c == marker) = true
    · rw [hb] at h
      simp only [if_true] at h
      by_cases hr : (rest.takeWhile isWordChar).length = 0
      · rw [if_pos hr] at h
        exact absurd h (by simp)
      · rw [if_neg hr] at h
        have hk := (Option.some_inj.mp h).symm
        have hlen : (rest.takeWhile isWordChar).length ≤ rest.length :=
          takeWhile_length_le isWordChar rest
        simp only [List.length_cons]
        omega
    · rw [Bool.not_eq_true] at hb
      rw [hb] at h
      exact absurd h (by simp)

theorem scanGo_split {m : List Char → Option Nat}
    (hsp : ∀ s r, m (s ++ ' ' :: r) = m s)
    (hb : ∀ s k, m s = some k → 1 ≤ k ∧ k ≤ s.length) :
    ∀ l r skip, skip ≤ l.length →
      scanGo m skip (l ++ ' ' :: r) = scanGo m skip l ++ ' ' :: scanGo m 0 r := by
  intro l
  induction l with
  | nil =>
    intro r skip hskip
    have hz : skip = 0 := Nat.le_zero.mp hskip
    subst hz
    have hnil : m [] = none := by
      cases hm : m [] with
      | none => rfl
      | some k =>
        have := hb [] k hm
        simp at this
        omega
    show (match m (' ' :: r) with
      | some (k+1) => scanGo m k r
      | _ => ' ' :: scanGo m 0 r) = ' ' :: scanGo m 0 r
    have : m (' ' :: r) = none := by
      have := hsp [] r
      simp only [List.nil_append] at this
      rw [this, hnil]
    rw [this]
  | cons c cs ih =>
    intro r skip hskip
    cases skip with
    | succ s =>
      show scanGo m s (cs ++ ' ' :: r) = scanGo m s cs ++ ' ' :: scanGo m 0 r
      exact ih r s (by simpa using hskip)
    | zero =>
      have hhead : m (c :: cs ++ ' ' :: r) = m (c :: cs) := by
        have := hsp (c :: cs) r
        simpa using this
      show (match m (c :: cs ++ ' ' :: r) with
        | some (k+1) => scanGo m k (cs ++ ' ' :: r)
        | _ => c :: scanGo m 0 (cs ++ ' ' :: r))
        = scanGo m 0 (c :: cs) ++ ' ' :: scanGo m 0 r
      rw [hhead]
      rcases hm : m (c :: cs) with _ | k
      · show c :: scanGo m 0 (cs ++ ' ' :: r) = (match m (c :: cs) with
          | some (k+1) => scanGo m k cs
          | _ => c :: scanGo m 0 cs) ++ ' ' :: scanGo m 0 r
        rw [hm, ih r 0 (Nat.zero_le _)]
        rfl
      · cases k with
        | zero =>
          have := hb _ _ hm
          omega
        | succ k' =>
          show scanGo m k' (cs ++ ' ' :: r) = (match m (c :: cs) with
            | some (k+1) => scanGo m k cs
            | _ => c :: scanGo m 0 cs) ++ ' ' :: scanGo m 0 r
          rw [hm]
          have hk' : k' ≤ cs.length := by
            have := hb _ _ hm
            simp only [List.length_cons] at this
            omega
          exact ih r k' hk'

/-! ### Retweet-marker, collapse and strip lemmas -/

theorem rtStrip_id {l : List Char} (h : rtLead l = false) : rtStrip l = l := by
  rcases l with _ | ⟨c1, _ | ⟨c2, _ | ⟨c3, rest⟩⟩⟩
  · rfl
  · rfl
  · rfl
  · simp only [rtLead] at h
    simp only [rtStrip]
    rw [h]
    rfl

theorem dropWhile_append_space_cases (q : Char → Bool) (hq : q ' ' = true) (l : List Char) :
    (l.dropWhile q = [] ∧ (l ++ [' ']).dropWhile q = []) ∨
      (l ++ [' ']).dropWhile q = l.dropWhile q ++ [' '] := by
  induction l with
  | nil =>
    left
    constructor
    · rfl
    · simp [List.dropWhile_cons, hq]
  | cons c t ih =>
    rw [List.cons_append, List.dropWhile_cons, List.dropWhile_cons]
    cases hc : q c with
    | true =>
      simp only [if_true]
      exact ih
    | false =>
      simp only [Bool.false_eq_true, if_false]
      right
      rfl

theorem rtStrip_append_space {l : List Char} (h : l ≠ ['r', 't']) :
    rtStrip (l ++ [' ']) = rtStrip l ++ [' '] ∨
      (rtStrip (l ++ [' ']) = [] ∧ rtStrip l = []) := by
  rcases l with _ | ⟨c1, _ | ⟨c2, _ | ⟨c3, rest⟩⟩⟩
  · left; rfl
  · left; rfl
  · show rtStrip [c1, c2, ' '] = rtStrip [c1, c2] ++ [' '] ∨ _
    by_cases hb : (c1 == 'r' && c2 == 't') = true
    · exfalso
      simp only [Bool.and_eq_true, beq_iff_eq] at hb
      exact h (by rw [hb.1, hb.2])
    · left
      simp only [rtStrip]
      rw [show (c1 == 'r' && c2 == 't' && isSpaceChar ' ') = false by
        simp only [Bool.not_eq_true] at hb
        rw [hb, Bool.false_and]]
      rfl
  · simp only [List.cons_append, rtStrip]
    by_cases hb : (c1 == 'r' && c2 == 't' && isSpaceChar c3) = true
    · rw [hb]
      simp only [if_true]
      rcases dropWhile_append_space_cases isSpaceChar (by decide) rest with ⟨h1, h2⟩ | hx
      · right; exact ⟨h2, h1⟩
      · left; exact hx
    · rw [Bool.not_eq_true] at hb
      rw [hb]
      left
      rfl

theorem rtStrip_subset {l : List Char} : ∀ c ∈ rtStrip l, c ∈ l := by
  rcases l with _ | ⟨c1, _ | ⟨c2, _ | ⟨c3, rest⟩⟩⟩
  · intro c hc; exact hc
  · intro c hc; exact hc
  · intro c hc; exact hc
  · simp only [rtStrip]
    by_cases hb : (c1 == 'r' && c2 == 't' && isSpaceChar c3) = true
    · rw [hb]
      simp only [if_true]
      intro c hc
      have : c ∈ rest := (rest.dropWhile_sublist isSpaceChar).subset hc
      simp [this]
    · rw [Bool.not_eq_true] at hb
      rw [hb]
      intro c hc
      exact hc

theorem wsCollapsed_tail {a : Char} {t : List Char} (h : wsCollapsed (a :: t) = true) :
    wsCollapsed t = true := by
  cases t with
  | nil => rfl
  | cons b t' =>
    simp only [wsCollapsed, Bool.and_eq_true] at h
    exact h.2

theorem wsCollapsed_cons_nonspace {a : Char} {t : List Char} (ha : isSpaceChar a = false)
    (ht : wsCollapsed t = true) : wsCollapsed (a :: t) = true := by
  cases t with
  | nil => rfl
  | cons b t' =>
    simp only [wsCollapsed]
    rw [ht, ha, Bool.false_and, Bool.not_false, Bool.true_and]

theorem wsCollapsed_cons_headfree {a : Char} {t : List Char} (ht : headSpace t = false)
    (hws : wsCollapsed t = true) : wsCollapsed (a :: t) = true := by
  cases t with
  | nil => rfl
  | cons b t' =>
    simp only [wsCollapsed]
    simp only [headSpace] at ht
    rw [hws, ht, Bool.and_false, Bool.not_false, Bool.true_and]

theorem collapseGo_props (l : List Char) :
    wsCollapsed (collapseGo true l) = true ∧ wsCollapsed (collapseGo false l) = true ∧
      headSpace (collapseGo true l) = false := by
  induction l with
  | nil => exact ⟨rfl, rfl, rfl⟩
  | cons c cs ih =>
    unfold collapseGo
    cases hc : isSpaceChar c with
    | true =>
      simp only [if_true]
      refine ⟨ih.1, ?_, ih.2.2⟩
      exact wsCollapsed_cons_headfree ih.2.2 ih.1
    | false =>
      simp only [Bool.false_eq_true, if_false]
      exact ⟨wsCollapsed_cons_nonspace hc ih.2.1, wsCollapsed_cons_nonspace hc ih.2.1,
        by simp only [headSpace]; exact hc⟩

theorem collapseGo_mem {flag : Bool} {l : List Char} :
    ∀ c ∈ collapseGo flag l, c = ' ' ∨ c ∈ l := by
  induction l generalizing flag with
  | nil => intro c hc; exact absurd hc (List.not_mem_nil c)
  | cons a t ih =>
    unfold collapseGo
    cases ha : isSpaceChar a with
    | true =>
      cases flag with
      | true =>
        simp only [if_true]
        intro c hc
        rcases ih c hc with h | h
        · exact Or.inl h
        · exact Or.inr (List.mem_cons_of_mem a h)
      | false =>
        simp only [if_true]
        intro c hc
        rcases List.mem_cons.mp hc with h | h
        · exact Or.inl h
        · rcases ih c h with h' | h'
          · exact Or.inl h'
          · exact Or.inr (List.mem_cons_of_mem a h')
    | false =>
      simp only [Bool.false_eq_true, if_false]
      intro c hc
      rcases List.mem_cons.mp hc with h | h
      · exact Or.inr (by rw [h]; exact List.mem_cons_self a t)
      · rcases ih c h with h' | h'
        · exact Or.inl h'
        · exact Or.inr (List.mem_cons_of_mem a h')

theorem collapseGo_id {l : List Char}
    (hsp : ∀ c ∈ l, isSpaceChar c = true → c = ' ') (hws : wsCollapsed l = true) :
    ∀ flag : Bool, (flag = true → headSpace l = false) → collapseGo flag l = l := by
  induction l with
  | nil => intro flag _; rfl
  | cons c cs ih =>
    intro flag hflag
    unfold collapseGo
    cases hc : isSpaceChar c with
    | true =>
      have hcsp : c = ' ' := hsp c (List.mem_cons_self c cs) hc
      have hfl : flag = false := by
        cases flag with
        | false => rfl
        | true =>
          have := hflag rfl
          simp only [headSpace] at this
          rw [hc] at this
          exact absurd this (by decide)
      subst hfl
      simp only [if_true]
      have hhead : headSpace cs = false := by
        cases cs with
        | nil => rfl
        | cons b t =>
          simp only [wsCollapsed, Bool.and_eq_true] at hws
          have h1 := hws.1
          simp only [headSpace]
          cases hb : isSpaceChar b with
          | false => rfl
          | true => rw [hc, hb] at h1; exact absurd h1 (by decide)
      rw [ih (fun x hx => hsp x (List.mem_cons_of_mem c hx)) (wsCollapsed_tail hws) true
        (fun _ => hhead), hcsp]
      rfl
    | false =>
      simp only [Bool.false_eq_true, if_false]
      rw [ih (fun x hx => hsp x (List.mem_cons_of_mem c hx)) (wsCollapsed_tail hws) false
        (by intro h; exact absurd h (by decide))]

theorem collapseGo_append_space (l : List Char) : ∀ flag : Bool,
    collapseGo flag (l ++ [' ']) = collapseGo flag l ++ [' '] ∨
      collapseGo flag (l ++ [' ']) = collapseGo flag l := by
  induction l with
  | nil =>
    intro flag
    cases flag with
    | true => right; rfl
    | false => left; rfl
  | cons c cs ih =>
    intro flag
    rw [List.cons_append]
    unfold collapseGo
    cases hc : isSpaceChar c with
    | true =>
      cases flag with
      | true =>
        simp only [if_true]
        exact ih true
      | false =>
        simp only [if_true]
        rcases ih true with h | h
        · left; rw [h]; rfl
        · right; rw [h]
    | false =>
      simp only [Bool.false_eq_true, if_false]
      rcases ih false with h | h
      · left; rw [h]; rfl
      · right; rw [h]

theorem dropWhile_eq_self_of_head {l : List Char} (h : headSpace l = false) :
    l.dropWhile isSpaceChar = l := by
  cases l with
  | nil => rfl
  | cons c t =>
    simp only [headSpace] at h
    rw [List.dropWhile_cons, h]
    rfl

theorem stripWs_id {l : List Char} (h1 : headSpace l = false)
    (h2 : headSpace l.reverse = false) : stripWs l = l := by
  unfold stripWs
  rw [dropWhile_eq_self_of_head h1, dropWhile_eq_self_of_head h2, List.reverse_reverse]

theorem headSpace_dropWhile (l : List Char) :
    headSpace (l.dropWhile isSpaceChar) = false := by
  induction l with
  | nil => rfl
  | cons c t ih =>
    rw [List.dropWhile_cons]
    cases hc : isSpaceChar c with
    | true => simpa using ih
    | false => simpa [headSpace] using hc

theorem dropWhile_append_split (q : Char → Bool) (u v : List Char) :
    (u.dropWhile q = [] ∧ (u ++ v).dropWhile q = v.dropWhile q) ∨
      (u ++ v).dropWhile q = u.dropWhile q ++ v := by
  induction u with
  | nil => exact Or.inl ⟨rfl, rfl⟩
  | cons c t ih =>
    rw [List.cons_append, List.dropWhile_cons, List.dropWhile_cons]
    cases q c with
    | true => simpa using ih
    | false =>
      right
      simp

theorem headSpace_rstrip {A : List Char} (h : headSpace A = false) :
    headSpace ((A.reverse.dropWhile isSpaceChar).reverse) = false := by
  cases A with
  | nil => rfl
  | cons a t =>
    simp only [headSpace] at h
    rw [List.reverse_cons]
    rcases dropWhile_append_split isSpaceChar t.reverse [a] with ⟨h1, h2⟩ | h2
    · rw [h2, List.dropWhile_cons, h]
      simp [headSpace, h]
    · rw [h2, List.reverse_append]
      simpa [headSpace] using h

theorem headSpace_stripWs (l : List Char) : headSpace (stripWs l) = false := by
  unfold stripWs
  exact headSpace_rstrip (headSpace_dropWhile l)

theorem tailSpace_stripWs (l : List Char) : headSpace (stripWs l).reverse = false := by
  unfold stripWs
  rw [List.reverse_reverse]
  exact headSpace_dropWhile _

theorem wsCollapsed_append_right {u v : List Char} (h : wsCollapsed (u ++ v) = true) :
    wsCollapsed v = true := by
  induction u with
  | nil => exact h
  | cons a u' ih =>
    rw [List.cons_append] at h
    exact ih (wsCollapsed_tail h)

theorem wsCollapsed_append_left {u v : List Char} (h : wsCollapsed (u ++ v) = true) :
    wsCollapsed u = true := by
  induction u with
  | nil => rfl
  | cons a u' ih =>
    cases u' with
    | nil => rfl
    | cons b u'' =>
      rw [List.cons_append, List.cons_append] at h
      simp only [wsCollapsed, Bool.and_eq_true] at h ⊢
      refine ⟨h.1, ?_⟩
      have := ih (by rw [List.cons_append]; exact h.2)
      exact this

theorem wsCollapsed_stripWs {l : List Char} (h : wsCollapsed l = true) :
    wsCollapsed (stripWs l) = true := by
  have hdw : wsCollapsed (l.dropWhile isSpaceChar) = true := by
    have hsplit := List.takeWhile_append_dropWhile (p := isSpaceChar) (l := l)
    rw [← hsplit] at h
    exact wsCollapsed_append_right h
  unfold stripWs
  set A := l.dropWhile isSpaceChar with hA
  have hsplit2 := List.takeWhile_append_dropWhile (p := isSpaceChar) (l := A.reverse)
  have hAeq : A = (A.reverse.dropWhile isSpaceChar).reverse ++
      (A.reverse.takeWhile isSpaceChar).reverse := by
    have := congrArg List.reverse hsplit2
    rw [List.reverse_append, List.reverse_reverse] at this
    exact this.symm
  rw [hAeq] at hdw
  exact wsCollapsed_append_left hdw

theorem stripWs_mem {l : List Char} : ∀ c ∈ stripWs l, c ∈ l := by
  intro c hc
  unfold stripWs at hc
  rw [List.mem_reverse] at hc
  have h1 : c ∈ (l.dropWhile isSpaceChar).reverse :=
    ((l.dropWhile isSpaceChar).reverse.dropWhile_sublist isSpaceChar).subset hc
  rw [List.mem_reverse] at h1
  exact (l.dropWhile_sublist isSpaceChar).subset h1

theorem stripWs_append_space (y : List Char) : stripWs (y ++ [' ']) = stripWs y := by
  unfold stripWs
  rcases dropWhile_append_split isSpaceChar y [' '] with ⟨h1, h2⟩ | h2
  · rw [h1, h2]
    rfl
  · rw [h2, List.reverse_append]
    show ((' ' :: (y.dropWhile isSpaceChar).reverse).dropWhile isSpaceChar).reverse = _
    rw [List.dropWhile_cons]
    rfl

/-- Canonical-form strings are fixed points of the whole cleaning pipeline. -/
theorem cleanL_fixed {y : List Char} (h : canonicalForm y = true) : cleanL y = y := by
  simp only [canonicalForm, wsNormalized, trimmedWs, Bool.and_eq_true, Bool.not_eq_true'] at h
  obtain ⟨⟨hall, hws, hhead, htail⟩, hrt⟩ := h
  rw [List.all_eq_true] at hall
  have hallm : ∀ c ∈ y, canonChar c = true := fun c hc => hall c hc
  have t1 : y.map lowerChar = y :=
    map_lowerChar_id (fun c hc => canonChar_not_upper (hallm c hc))
  have hcolon : ':' ∉ y := fun hm => absurd (hallm ':' hm) (by decide)
  have hdot : '.' ∉ y := fun hm => absurd (hallm '.' hm) (by decide)
  have hat : '@' ∉ y := fun hm => absurd (hallm '@' hm) (by decide)
  have hhash : '#' ∉ y := fun hm => absurd (hallm '#' hm) (by decide)
  have t2 : scanSub matchUrl y = y :=
    scanGo_id (fun t ht =>
      matchUrl_none (fun hm => hcolon (ht.subset hm)) (fun hm => hdot (ht.subset hm)))
  have t3 : scanSub (matchTag '@') y = y :=
    scanGo_id (fun t ht => matchTag_none (fun hm => hat (ht.subset hm)))
  have t4 : scanSub (matchTag '#') y = y :=
    scanGo_id (fun t ht => matchTag_none (fun hm => hhash (ht.subset hm)))
  have t5 : rtStrip y = y := rtStrip_id hrt
  have t6a : collapseWs y = y :=
    collapseGo_id (fun c hc hs => canonChar_space_eq (hallm c hc) hs) hws false
      (by intro hcontra; exact absurd hcontra (by decide))
  have t6b : stripWs y = y := stripWs_id hhead htail
  have t7 : y.filter (fun c => isWordChar c || isSpaceChar c) = y :=
    List.filter_eq_self.mpr (fun c hc => canonChar_word_or_space (hallm c hc))
  show (stripWs (collapseWs (rtStrip (scanSub (matchTag '#') (scanSub (matchTag '@')
      (scanSub matchUrl (y.map lowerChar))))))).filter
      (fun c => isWordChar c || isSpaceChar c) = y
  rw [t1, t2, t3, t4, t5]
  show (stripWs (collapseWs y)).filter (fun c => isWordChar c || isSpaceChar c) = y
  rw [t6a, t6b, t7]

/-- C3 amended: `normalize` is idempotent at every input whose normalized
output is canonical — lowercase word characters with single interior spaces,
trimmed, and not beginning with a retweet marker.  (The counterexample shows
it is not idempotent unconditionally.) -/
theorem normalize_idempotent_amended (x : String)
    (h : canonicalForm (clean_tweet x).data = true) :
    clean_tweet (clean_tweet x) = clean_tweet x := by
  show (⟨cleanL (clean_tweet x).data⟩ : String) = clean_tweet x
  rw [cleanL_fixed h]

/-- Witness for C3's amended claim at a concrete input. -/
theorem normalize_idempotent_amended_witness :
    clean_tweet (clean_tweet "Hello   WORLD #x") = clean_tweet "Hello   WORLD #x" :=
  normalize_idempotent_amended "Hello   WORLD #x" (by decide)

/-- C6 amended: for inputs made of word characters and whitespace only (so the
final special-character deletion is a no-op), the output of `normalize` has
every whitespace run collapsed to a single space and is trimmed. -/
theorem normalize_ws_amended (x : String)
    (h : ∀ c ∈ x.data, (isWordChar c || isSpaceChar c) = true) :
    wsNormalized (clean_tweet x).data = true := by
  have h1 : ∀ c ∈ x.data.map lowerChar, (isWordChar c || isSpaceChar c) = true := by
    intro c hc
    obtain ⟨a, ha, rfl⟩ := List.mem_map.mp hc
    exact wordspace_lowerChar (h a ha)
  obtain ⟨hc1, hd1, ha1, hh1⟩ := mem_wordspace_not_special h1
  have t2 : scanSub matchUrl (x.data.map lowerChar) = x.data.map lowerChar :=
    scanGo_id (fun t ht =>
      matchUrl_none (fun hm => hc1 (ht.subset hm)) (fun hm => hd1 (ht.subset hm)))
  have t3 : scanSub (matchTag '@') (x.data.map lowerChar) = x.data.map lowerChar :=
    scanGo_id (fun t ht => matchTag_none (fun hm => ha1 (ht.subset hm)))
  have t4 : scanSub (matchTag '#') (x.data.map lowerChar) = x.data.map lowerChar :=
    scanGo_id (fun t ht => matchTag_none (fun hm => hh1 (ht.subset hm)))
  have h5 : ∀ c ∈ rtStrip (x.data.map lowerChar), (isWordChar c || isSpaceChar c) = true :=
    fun c hc => h1 c (rtStrip_subset c hc)
  have hcol : wsCollapsed (collapseWs (rtStrip (x.data.map lowerChar))) = true :=
    (collapseGo_props (rtStrip (x.data.map lowerChar))).2.1
  have hst : wsCollapsed (stripWs (collapseWs (rtStrip (x.data.map lowerChar)))) = true :=
    wsCollapsed_stripWs hcol
  have hhd : headSpace (stripWs (collapseWs (rtStrip (x.data.map lowerChar)))) = false :=
    headSpace_stripWs _
  have htl : headSpace (stripWs (collapseWs (rtStrip (x.data.map lowerChar)))).reverse = false :=
    tailSpace_stripWs _
  have h6 : ∀ c ∈ stripWs (collapseWs (rtStrip (x.data.map lowerChar))),
      (isWordChar c || isSpaceChar c) = true := by
    intro c hc
    have hc2 : c ∈ collapseWs (rtStrip (x.data.map lowerChar)) := stripWs_mem c hc
    rcases collapseGo_mem c hc2 with rfl | hc3
    · decide
    · exact h5 c hc3
  have t7 : (stripWs (collapseWs (rtStrip (x.data.map lowerChar)))).filter
      (fun c => isWordChar c || isSpaceChar c)
      = stripWs (collapseWs (rtStrip (x.data.map lowerChar))) :=
    List.filter_eq_self.mpr (fun c hc => h6 c hc)
  show wsNormalized ((stripWs (collapseWs (rtStrip (scanSub (matchTag '#')
      (scanSub (matchTag '@') (scanSub matchUrl (x.data.map lowerChar))))))).filter
      (fun c => isWordChar c || isSpaceChar c)) = true
  rw [t2, t3, t4, t7]
  unfold wsNormalized trimmedWs
  rw [hst, hhd, htl]
  rfl

/-- Witness for C6's amended claim at a word-and-whitespace input. -/
theorem normalize_ws_amended_witness :
    wsNormalized (clean_tweet "hello   world  now").data = true :=
  normalize_ws_amended "hello   world  now" (by decide)

theorem matchTag_full {marker : Char} {w : List Char} (hw : w ≠ [])
    (hwc : ∀ c ∈ w, isWordChar c = true) :
    matchTag marker (marker :: w) = some (1 + w.length) := by
  show (if marker == marker then
      if ((w.takeWhile isWordChar)).length = 0 then none
      else some (1 + (w.takeWhile isWordChar).length)
    else none) = some (1 + w.length)
  rw [beq_self_eq_true, if_pos rfl, List.takeWhile_eq_self_iff.mpr (fun c hc => hwc c hc),
    if_neg (fun hc => hw (List.length_eq_zero.mp hc))]

theorem scanSub_tag_token {marker : Char} {w : List Char} (hw : w ≠ [])
    (hwc : ∀ c ∈ w, isWordChar c = true) :
    scanSub (matchTag marker) (marker :: w) = [] := by
  show (match matchTag marker (marker :: w) with
    | some (k+1) => scanGo (matchTag marker) k w
    | _ => marker :: scanGo (matchTag marker) 0 w) = []
  rw [matchTag_full hw hwc, Nat.one_add]
  show scanGo (matchTag marker) w.length w = []
  exact scanGo_all _ _

theorem word_list_not_mem {w : List Char} (hwc : ∀ c ∈ w, isWordChar c = true)
    {d : Char} (hd : isWordChar d = false) : d ∉ w := by
  intro hm
  rw [hwc d hm] at hd
  exact absurd hd (by decide)

/-- After the retweet strip, the whitespace collapse, the trim and the final
filter, a dangling trailing space (left behind by a deleted trailing token)
makes no difference — provided the residue is not the bare marker `rt`. -/
theorem post_stages_append_space {R : List Char} (h : R ≠ ['r', 't']) :
    stripWs (collapseWs (rtStrip (R ++ [' ']))) = stripWs (collapseWs (rtStrip R)) := by
  rcases rtStrip_append_space h with h1 | ⟨h1, h2⟩
  · rw [h1]
    rcases collapseGo_append_space (rtStrip R) false with h2 | h2
    · show stripWs (collapseGo false (rtStrip R ++ [' '])) = _
      rw [h2]
      exact stripWs_append_space _
    · show stripWs (collapseGo false (rtStrip R ++ [' '])) = _
      rw [h2]
      rfl
  · rw [h1, h2]

/-- Appending a space-separated `#word` or `@word` token leaves the cleaned
text unchanged, unless the residue of the original text after URL, mention
and hashtag deletion is exactly `rt`. -/
theorem cleanL_append_token (x w : List Char) (sym : Char)
    (hsym : sym = '#' ∨ sym = '@') (hw : w ≠ []) (hwc : ∀ c ∈ w, isWordChar c = true)
    (hres : strip3L x ≠ ['r', 't']) :
    cleanL (x ++ ' ' :: sym :: w) = cleanL x := by
  have hsyml : lowerChar sym = sym := by
    rcases hsym with h | h <;> subst h <;> decide
  have m1 : (x ++ ' ' :: sym :: w).map lowerChar
      = x.map lowerChar ++ ' ' :: sym :: w.map lowerChar := by
    rw [List.map_append, List.map_cons, List.map_cons, hsyml,
      show lowerChar ' ' = ' ' from by decide]
  have hw'ne : w.map lowerChar ≠ [] := by
    intro hcontra
    exact hw (List.map_eq_nil_iff.mp hcontra)
  have hw'c : ∀ c ∈ w.map lowerChar, isWordChar c = true := by
    intro c hc
    obtain ⟨a, ha, rfl⟩ := List.mem_map.mp hc
    exact lowerChar_word (hwc a ha)
  have hmem : ∀ d : Char, isWordChar d = false → d ≠ sym →
      ∀ t, t <:+ (sym :: w.map lowerChar) → d ∉ t := by
    intro d hd hds t ht hm
    rcases List.mem_cons.mp (ht.subset hm) with hcase | hcase
    · exact hds hcase
    · exact word_list_not_mem hw'c hd hcase
  have idUrl : scanSub matchUrl (sym :: w.map lowerChar) = sym :: w.map lowerChar :=
    scanGo_id (fun t ht =>
      matchUrl_none
        (hmem ':' (by decide) (by rcases hsym with h | h <;> subst h <;> decide) t ht)
        (hmem '.' (by decide) (by rcases hsym with h | h <;> subst h <;> decide) t ht))
  have splitUrl := scanGo_split matchUrl_append_space
    (fun s k hk => matchUrl_bound hk) (x.map lowerChar) (sym :: w.map lowerChar) 0
    (Nat.zero_le _)
  have stage2 : scanSub matchUrl ((x ++ ' ' :: sym :: w).map lowerChar)
      = scanSub matchUrl (x.map lowerChar) ++ ' ' :: sym :: w.map lowerChar := by
    rw [m1]
    show scanGo matchUrl 0 (x.map lowerChar ++ ' ' :: sym :: w.map lowerChar) = _
    rw [splitUrl]
    show scanSub matchUrl (x.map lowerChar) ++ ' ' :: scanSub matchUrl (sym :: w.map lowerChar)
      = _
    rw [idUrl]
  have splitAt := scanGo_split (@matchTag_append_space '@' (by decide))
    (fun s k hk => matchTag_bound hk) (scanSub matchUrl (x.map lowerChar))
    (sym :: w.map lowerChar) 0 (Nat.zero_le _)
  have stage3 : scanSub (matchTag '@')
        (scanSub matchUrl (x.map lowerChar) ++ ' ' :: sym :: w.map lowerChar)
      = scanSub (matchTag '@') (scanSub matchUrl (x.map lowerChar))
          ++ ' ' :: scanSub (matchTag '@') (sym :: w.map lowerChar) := splitAt
  have stage4 : scanSub (matchTag '#')
        (scanSub (matchTag '@') (scanSub matchUrl (x.map lowerChar))
          ++ ' ' :: scanSub (matchTag '@') (sym :: w.map lowerChar))
      = strip3L x ++ [' '] := by
    rcases hsym with h | h
    · subst h
      have id3 : scanSub (matchTag '@') ('#' :: w.map lowerChar) = '#' :: w.map lowerChar :=
        scanGo_id (fun t ht => matchTag_none (hmem '@' (by decide) (by decide) t ht))
      rw [id3]
      have split4 := scanGo_split (@matchTag_append_space '#' (by decide))
        (fun s k hk => matchTag_bound hk)
        (scanSub (matchTag '@') (scanSub matchUrl (x.map lowerChar)))
        ('#' :: w.map lowerChar) 0 (Nat.zero_le _)
      show scanGo (matchTag '#') 0 _ = _
      rw [split4]
      show strip3L x ++ ' ' :: scanSub (matchTag '#') ('#' :: w.map lowerChar) = _
      rw [scanSub_tag_token hw'ne hw'c]
    · subst h
      rw [scanSub_tag_token hw'ne hw'c]
      have split4 := scanGo_split (@matchTag_append_space '#' (by decide))
        (fun s k hk => matchTag_bound hk)
        (scanSub (matchTag '@') (scanSub matchUrl (x.map lowerChar))) [] 0 (Nat.zero_le _)
      show scanGo (matchTag '#') 0 (_ ++ [' ']) = _
      rw [show (scanSub (matchTag '@') (scanSub matchUrl (x.map lowerChar)) ++ [' '])
        = scanSub (matchTag '@') (scanSub matchUrl (x.map lowerChar)) ++ ' ' :: [] from rfl]
      rw [split4]
      rfl
  show (stripWs (collapseWs (rtStrip (scanSub (matchTag '#') (scanSub (matchTag '@')
      (scanSub matchUrl ((x ++ ' ' :: sym :: w).map lowerChar))))))).filter
      (fun c => isWordChar c || isSpaceChar c)
    = (stripWs (collapseWs (rtStrip (scanSub (matchTag '#') (scanSub (matchTag '@')
      (scanSub matchUrl (x.map lowerChar))))))).filter
      (fun c => isWordChar c || isSpaceChar c)
  rw [stage2, stage3, stage4, post_stages_append_space hres]
  rfl

/-- C10 amended: appending a `" #w"` or `" @w"` token (with `w` a word) never
changes the (label, score) pair of `score_sentiment` for non-empty text whose
residue after URL/mention/hashtag deletion is not exactly the bare retweet
marker `rt`: under that proviso the cleaned text is identical, so the two
sub-scorers are consulted on the very same string.  (The counterexample shows
the `rt` residue case genuinely escapes the claim.) -/
theorem sentiment_hashtag_append_amended (vc tp : String → ℚ) (x w : String)
    (hx : x ≠ "") (hw : w.data ≠ []) (hwc : ∀ c ∈ w.data, isWordChar c = true)
    (hres : strip3L x.data ≠ ['r', 't']) :
    analyze_sentiment vc tp (x ++ " #" ++ w) = analyze_sentiment vc tp x ∧
    analyze_sentiment vc tp (x ++ " @" ++ w) = analyze_sentiment vc tp x := by
  have hdata1 : (x ++ " #" ++ w).data = x.data ++ ' ' :: '#' :: w.data := by
    rw [String.data_append, String.data_append]
    simp
  have hdata2 : (x ++ " @" ++ w).data = x.data ++ ' ' :: '@' :: w.data := by
    rw [String.data_append, String.data_append]
    simp
  have hc1 : clean_tweet (x ++ " #" ++ w) = clean_tweet x := by
    show (⟨cleanL (x ++ " #" ++ w).data⟩ : String) = ⟨cleanL x.data⟩
    rw [hdata1, cleanL_append_token x.data w.data '#' (Or.inl rfl) hw hwc hres]
  have hc2 : clean_tweet (x ++ " @" ++ w) = clean_tweet x := by
    show (⟨cleanL (x ++ " @" ++ w).data⟩ : String) = ⟨cleanL x.data⟩
    rw [hdata2, cleanL_append_token x.data w.data '@' (Or.inr rfl) hw hwc hres]
  have hne1 : (x ++ " #" ++ w) ≠ "" := by
    intro hcontra
    have hd : (x ++ " #" ++ w).data = [] := by rw [hcontra]
    rw [hdata1] at hd
    exact absurd hd (by simp)
  have hne2 : (x ++ " @" ++ w) ≠ "" := by
    intro hcontra
    have hd : (x ++ " @" ++ w).data = [] := by rw [hcontra]
    rw [hdata2] at hd
    exact absurd hd (by simp)
  constructor
  · unfold analyze_sentiment
    rw [if_neg hne1, if_neg hx, hc1]
  · unfold analyze_sentiment
    rw [if_neg hne2, if_neg hx, hc2]

/-- Witness for C10's amended claim at a concrete text, word and sub-scorers. -/
theorem sentiment_hashtag_append_amended_witness :
    analyze_sentiment (fun _ => 0) (fun _ => 0) ("good day" ++ " #" ++ "w1")
        = analyze_sentiment (fun _ => 0) (fun _ => 0) "good day" ∧
    analyze_sentiment (fun _ => 0) (fun _ => 0) ("good day" ++ " @" ++ "w1")
        = analyze_sentiment (fun _ => 0) (fun _ => 0) "good day" :=
  sentiment_hashtag_append_amended (fun _ => 0) (fun _ => 0) "good day" "w1"
    (by decide) (by decide) (by decide) (by decide)
